import Mathlib

/-!
Verification of the langgraph-chatbot repository against its natural-language
specification.  The Python modules under `src/langgraph_chatbot` are shallowly
embedded below: messages become an inductive `Msg` type, the graph nodes become
pure Lean functions over message lists, and the nondeterministic LLM / tool
backends become explicit oracle parameters.  All definitions are translated
from the source files; the theorems at the end settle the frozen claims.
-/

namespace LangGraphChatbot

/-- A tool call as carried by an `AIMessage` (dict with name / args / id in the
source).  `args` is kept as an opaque string payload: none of the graph logic
inspects it. -/
structure ToolCall where
  name : String
  args : String
  id : String
  deriving DecidableEq, Repr

/-- Shallow embedding of the LangChain message classes used by the repository:
`HumanMessage`, `SystemMessage`, `AIMessage` (with its `tool_calls` list) and
`ToolMessage` (with `content`, `tool_call_id` and `name`). -/
inductive Msg where
  | human (content : String)
  | system (content : String)
  | ai (content : String) (tool_calls : List ToolCall)
  | tool (content : String) (tool_call_id : String) (name : String)
  deriving DecidableEq, Repr

namespace Msg

/-- `isinstance(msg, HumanMessage)`. -/
def isHuman : Msg → Bool
  | .human _ => true
  | _ => false

/-- `isinstance(msg, AIMessage)`. -/
def isAI : Msg → Bool
  | .ai _ _ => true
  | _ => false

/-- `isinstance(msg, ToolMessage)`. -/
def isTool : Msg → Bool
  | .tool _ _ _ => true
  | _ => false

end Msg

/-! ## `graph/nodes.py` — `FilteredToolNode.__call__`

`FilteredToolNode` wraps LangGraph's `ToolNode`; before invoking it, the
wrapper drops every tool call of the last tool-calling `AIMessage` whose
`id` already has a `ToolMessage` in the state.  The underlying `ToolNode`
produces one `ToolMessage` per remaining call; its behaviour is abstracted by
an oracle `exec : ToolCall → String` giving each call's result content. -/

/-- `existing_tool_ids = \x7bmsg.tool_call_id for msg in messages if isinstance(msg, ToolMessage)\x7d`
(kept as a list; only membership is used downstream). -/
def existingToolIds (messages : List Msg) : List String :=
  messages.filterMap fun m =>
    match m with
    | .tool _ id _ => some id
    | _ => none

/-- The backward scan `for msg in reversed(messages): if isinstance(msg, AIMessage)
and msg.tool_calls: ...` — the last `AIMessage` carrying a non-empty
`tool_calls` list, if any. -/
def lastAIWithToolCalls (messages : List Msg) : Option Msg :=
  messages.reverse.find? fun m =>
    match m with
    | .ai _ tcs => !tcs.isEmpty
    | _ => false

/-- The `tool_calls` batch of the last tool-calling `AIMessage` (empty when
there is none). -/
def pendingBatch (messages : List Msg) : List ToolCall :=
  match lastAIWithToolCalls messages with
  | some (.ai _ tcs) => tcs
  | _ => []

/-- `filtered_tool_calls = [tc for tc in last_ai_message.tool_calls if tc["id"]
not in existing_tool_ids]`. -/
def filteredToolCalls (messages : List Msg) : List ToolCall :=
  (pendingBatch messages).filter fun tc => !(existingToolIds messages).contains tc.id

/-- `FilteredToolNode.__call__`: the list of new `ToolMessage`s returned to the
graph.  When no tool-calling `AIMessage` exists, or every call in the batch
already has a `ToolMessage`, the node returns an empty message list without
invoking the underlying `ToolNode`; otherwise the `ToolNode` executes exactly
the filtered calls, producing one `ToolMessage` per call. -/
def filteredToolNodeCall (exec : ToolCall → String) (messages : List Msg) : List Msg :=
  match lastAIWithToolCalls messages with
  | none => []
  | some _ =>
    let fcs := filteredToolCalls messages
    if fcs.isEmpty then []
    else fcs.map fun tc => Msg.tool (exec tc) tc.id tc.name

/-- The calls actually handed to the underlying `ToolNode` for execution
(`self.tool_node.invoke` is reached only when the filtered batch is
non-empty). -/
def invokedCalls (messages : List Msg) : List ToolCall :=
  match lastAIWithToolCalls messages with
  | none => []
  | some _ =>
    let fcs := filteredToolCalls messages
    if fcs.isEmpty then [] else fcs

/-- Number of `ToolMessage`s in `messages` whose `tool_call_id` equals `i` —
the number of ToolResults an identifier has in the history. -/
def resultCount (messages : List Msg) (i : String) : Nat :=
  messages.countP fun m =>
    match m with
    | .tool _ id _ => id == i
    | _ => false

/-! ## `graph/approval_node.py` -/

/-- `extract_pending_tools`: the tool calls of the last tool-calling
`AIMessage` (the source rebuilds each call dict field by field, which is the
identity on our `ToolCall` records). -/
def extract_pending_tools (messages : List Msg) : List ToolCall :=
  pendingBatch messages

/-- `check_approval_required(tool_calls, human_in_loop_enabled)`: with
human-in-loop disabled everything is auto-approved; otherwise the single pass
over `tool_calls` appends each call, in order, to the approval list when its
name is in `settings.tools_requiring_approval` (passed here as
`approvalSet`) and to the auto-approved list otherwise. -/
def check_approval_required (tool_calls : List ToolCall) (approvalSet : List String)
    (human_in_loop_enabled : Bool) : List ToolCall × List ToolCall :=
  if !human_in_loop_enabled then ([], tool_calls)
  else
    (tool_calls.filter (fun tc => approvalSet.contains tc.name),
     tool_calls.filter (fun tc => !approvalSet.contains tc.name))

/-- The state fields written by `approval_check_node`. -/
structure ApprovalCheck where
  needs_approval : Bool
  pending_tool_calls : List ToolCall
  deriving DecidableEq, Repr

/-- `approval_check_node`: no pending tools, or an empty approval-required
partition, yields `needs_approval = False` with no pending calls; a non-empty
approval-required partition yields `needs_approval = True` carrying exactly
that partition. -/
def approval_check_node (messages : List Msg) (approvalSet : List String)
    (human_in_loop_enabled : Bool) : ApprovalCheck :=
  let pending := extract_pending_tools messages
  if pending.isEmpty then ⟨false, []⟩
  else
    let part := check_approval_required pending approvalSet human_in_loop_enabled
    if !part.1.isEmpty then ⟨true, part.1⟩ else ⟨false, []⟩

/-- `should_interrupt`: routing key returned to the conditional edge. -/
def should_interrupt (needs_approval : Bool) : String :=
  if needs_approval then "interrupt" else "tools"

/-! ## `graph/workflow.py` — `create_chatbot`

The graph wiring that matters for the suspension claim: after `chat_node`,
`tools_condition` routes to `approval_check` when the response carries tool
calls and to `END` otherwise; both outcomes of `should_interrupt` are mapped
to the `tools` node; and the graph is compiled with
`interrupt_before=["tools"]`. -/

/-- LangGraph's prebuilt `tools_condition`: `"tools"` when the last message is
an `AIMessage` with a non-empty `tool_calls` list, `END` otherwise. -/
def tools_condition (messages : List Msg) : String :=
  match messages.getLast? with
  | some (.ai _ tcs) => if !tcs.isEmpty then "tools" else "END"
  | _ => "END"

/-- The conditional-edge map attached to `chat_node` in `create_chatbot`. -/
def chatNodeEdge (route : String) : String :=
  if route == "tools" then "approval_check" else "END"

/-- The conditional-edge map attached to `approval_check` in `create_chatbot`
(`"interrupt"` and `"tools"` are both mapped to the `tools` node). -/
def approvalCheckEdge (route : String) : String :=
  if route == "interrupt" then "tools" else "tools"

/-- `graph.compile(checkpointer=..., interrupt_before=["tools"])`. -/
def interruptBeforeNodes : List String := ["tools"]

/-- Whether a turn, having produced the assistant response at the end of
`messages`, hands control back to the caller before tool execution: the run
continues past `chat_node` along the compiled edges and stops early exactly
when the next node to execute is in the `interrupt_before` list. -/
def turnSuspendsBeforeTools (messages : List Msg) (approvalSet : List String)
    (human_in_loop_enabled : Bool) : Bool :=
  let route := tools_condition messages
  if chatNodeEdge route == "END" then false
  else
    let check := approval_check_node messages approvalSet human_in_loop_enabled
    interruptBeforeNodes.contains (approvalCheckEdge (should_interrupt check.needs_approval))

/-! ## `ui/approval_handlers.py` — `handle_approval_and_resume` -/

/-- The content of the synthetic `ToolMessage` injected for a rejected call. -/
def rejectedContent : String :=
  "Tool execution was rejected by the user. Please respond without using this tool."

/-- The rejection block of `handle_approval_and_resume`: one synthetic
`ToolMessage` per call of the last tool-calling `AIMessage` whose name is in
`rejected_tools`.  (`approved_tools` is received but never consulted by the
function.) -/
def rejectionMessages (messages : List Msg) (rejected_tools : List String) : List Msg :=
  (pendingBatch messages).filterMap fun tc =>
    if rejected_tools.contains tc.name then
      some (Msg.tool rejectedContent tc.id tc.name)
    else none

/-- `handle_approval_and_resume` up to the point where tools run: the state's
message list is extended with the synthetic rejections and the graph is
resumed, so the `tools` node (the `FilteredToolNode`) executes the filtered
batch of the extended history.  Returns the calls that actually execute. -/
def resumeExecutedCalls (messages : List Msg) (approved_tools rejected_tools : List String) :
    List ToolCall :=
  let _ := approved_tools
  invokedCalls (messages ++ rejectionMessages messages rejected_tools)

/-! ## `ui/ui_components.py` — `render_approval_ui`, "Submit Decisions" path

Per-tool decisions are collected in `st.session_state["approval_decisions"]`,
a name-keyed map with values `"approved"` / `"rejected"`; on submit, the
approved and rejected name lists are read off the map and every pending tool
name with no decision is appended to the rejected list. -/

/-- The approved / rejected name lists computed by the "Submit Decisions"
handler from the decisions map (modelled as an association list
name ↦ approved?) and the pending batch. -/
def submitDecisions (pending : List ToolCall) (decisions : List (String × Bool)) :
    List String × List String :=
  let approved := (decisions.filter fun p => p.2).map Prod.fst
  let rejected := (decisions.filter fun p => !p.2).map Prod.fst
  let decided := decisions.map Prod.fst
  let undecided := ((pending.map ToolCall.name).dedup).filter fun nm => !decided.contains nm
  (approved, rejected ++ undecided)

/-- Whether `render_approval_ui` asks the human for a decision: it renders the
approval buttons exactly when the persisted `pending_tool_calls` list is
non-empty, and otherwise auto-resumes via `handle_auto_resume`. -/
def uiAwaitsHuman (check : ApprovalCheck) : Bool :=
  !check.pending_tool_calls.isEmpty

/-! ## `tools/__init__.py` — the tool catalog

`ALL_TOOLS` in registration order; only the names matter to the graph logic
(the calculator's behaviour itself is embedded further down). -/

/-- `[tool.name for tool in ALL_TOOLS]`. -/
def allToolNames : List String :=
  ["calculator", "get_weather", "unit_converter", "get_current_time",
   "date_calculator", "file_operations", "web_search"]

/-! ## `graph/intent_classifier.py` — `extract_last_n_turns`

The source walks the history backward with an index `i`; on each `AIMessage`
it scans further back (index `j`) for the nearest `HumanMessage`, prepends the
`[human, ai]` pair to the accumulated turns and jumps to just before that
human message; an `AIMessage` with no preceding human is skipped.  The walk
stops at the front of the list or once `n` pairs are collected. -/

/-- Out-of-range placeholder for index accesses (never reached: the loops only
touch indices below `messages.length`). -/
def noMsg : Msg := Msg.system ""

/-- The inner `while j >= 0` scan of `extract_last_n_turns`: the largest index
`≤ j` holding a `HumanMessage`. -/
def findHumanDown (messages : List Msg) : Nat → Option Nat
  | 0 => if (messages.getD 0 noMsg).isHuman then some 0 else none
  | j + 1 =>
    if (messages.getD (j + 1) noMsg).isHuman then some (j + 1)
    else findHumanDown messages j

/-- The inner scan started at `j = i - 1` (it does not run at all when
`i = 0`, matching Python's `while` over an empty range). -/
def findHumanBelow (messages : List Msg) : Nat → Option Nat
  | 0 => none
  | i + 1 => findHumanDown messages i

theorem findHumanDown_le {messages : List Msg} :
    ∀ {j0 j : Nat}, findHumanDown messages j0 = some j → j ≤ j0 := by
  intro j0
  induction j0 with
  | zero =>
    intro j h
    simp only [findHumanDown] at h
    split at h
    · simp_all
    · simp at h
  | succ j0 ih =>
    intro j h
    simp only [findHumanDown] at h
    split at h
    · simp_all
    · exact Nat.le_succ_of_le (ih h)

theorem findHumanBelow_lt {messages : List Msg} :
    ∀ {i j : Nat}, findHumanBelow messages i = some j → j < i := by
  intro i j h
  cases i with
  | zero => simp [findHumanBelow] at h
  | succ i => exact Nat.lt_succ_of_le (findHumanDown_le h)

/-- The outer `while i >= 0 and len(turns) // 2 < n` loop of
`extract_last_n_turns`.  The third argument is `i + 1` (number of prefix
elements still in play; `0` encodes Python's `i == -1` exit), `turns` is the
accumulator built by the two `insert` calls.  The first argument is pure
fuel making the recursion structural: the index strictly decreases on every
iteration, so any fuel at least the starting index bounds the loop. -/
def turnsLoop (messages : List Msg) (n : Nat) : Nat → Nat → List Msg → List Msg
  | 0, _, turns => turns
  | _ + 1, 0, turns => turns
  | fuel + 1, i + 1, turns =>
    if n ≤ turns.length / 2 then turns
    else if (messages.getD i noMsg).isAI then
      match findHumanBelow messages i with
      | some j =>
        turnsLoop messages n fuel j
          (messages.getD j noMsg :: messages.getD i noMsg :: turns)
      | none => turnsLoop messages n fuel i turns
    else turnsLoop messages n fuel i turns

/-- `extract_last_n_turns(messages, n)`. -/
def extract_last_n_turns (messages : List Msg) (n : Nat) : List Msg :=
  turnsLoop messages n messages.length messages.length []

/-- Second, spec-side description of the same extraction (used to state the
amended turn-extraction claim): reading the reversed history front to back,
each assistant message encountered — whether or not it carries tool calls —
is paired with the first user message after it in the reversed order (the
nearest preceding one chronologically), the scan resumes past that user
message, and at most `n` pairs are produced. -/
def splitAtFirstHuman : List Msg → Option (Msg × List Msg)
  | [] => none
  | m :: rest => if m.isHuman then some (m, rest) else splitAtFirstHuman rest

theorem splitAtFirstHuman_length :
    ∀ {l : List Msg} {h : Msg} {rest : List Msg},
      splitAtFirstHuman l = some (h, rest) → rest.length < l.length := by
  intro l
  induction l with
  | nil => intro h rest hx; simp [splitAtFirstHuman] at hx
  | cons m tl ih =>
    intro h rest hx
    simp only [splitAtFirstHuman] at hx
    split at hx
    · cases hx
      exact Nat.lt_succ_self _
    · exact Nat.lt_succ_of_lt (ih hx)

/-- Latest-first user/assistant pairs extracted from a reversed history with a
pair budget. -/
def turnPairsRev : List Msg → Nat → List (Msg × Msg)
  | [], _ => []
  | _ :: _, 0 => []
  | m :: rest, b + 1 =>
    if m.isAI then
      match h : splitAtFirstHuman rest with
      | some (hm, rest') => (hm, m) :: turnPairsRev rest' b
      | none => turnPairsRev rest (b + 1)
    else turnPairsRev rest (b + 1)
termination_by l _ => l.length
decreasing_by
  all_goals first
    | exact Nat.lt_succ_of_lt (splitAtFirstHuman_length h)
    | exact Nat.lt_succ_self _

/-- Flattens chronological pairs into the `[human, ai, human, ai, ...]` shape
returned by the source. -/
def renderTurns : List (Msg × Msg) → List Msg
  | [] => []
  | p :: ps => p.1 :: p.2 :: renderTurns ps

/-- The spec-side extraction: last `n` pairs, chronological. -/
def extractTurnsSpec (messages : List Msg) (n : Nat) : List Msg :=
  renderTurns (turnPairsRev messages.reverse n).reverse

/-! ## `graph/intent_classifier.py` — `intent_classifier_node`

One classifier attempt (an LLM call plus JSON extraction) either parses to a
list of names, fails to parse (`json.JSONDecodeError` / non-array
`ValueError`, caught and retried), or raises some other exception (not caught
by the retry handler; it reaches the node's outer `except`, which falls back
to the full catalog). -/

inductive ClassifierAttempt where
  | parsed (names : List String)
  | unparseable
  | raised
  deriving DecidableEq, Repr

inductive ClassifierLoopOut where
  | returned (names : List String)
  | exhausted
  | raisedOut
  deriving DecidableEq, Repr

/-- The `for attempt in range(max_retries)` retry loop: a parsed response is
validated against the catalog names and returned; a parse failure injects
feedback and retries; any other exception escapes the loop. -/
def classifierLoop (attempts : Nat → ClassifierAttempt) (validNames : List String) :
    Nat → Nat → ClassifierLoopOut
  | 0, _ => .exhausted
  | fuel + 1, k =>
    match attempts k with
    | .parsed names => .returned (names.filter validNames.contains)
    | .unparseable => classifierLoop attempts validNames fuel (k + 1)
    | .raised => .raisedOut

/-- `intent_classifier_node`: an empty history (where `messages[-1]` raises)
or a last message that is not a `HumanMessage` yields the full catalog; so do
loop exhaustion and an escaped exception (outer `except`).  The oracle
`attempts` gives the outcome of each classifier attempt. -/
def intent_classifier_node (messages : List Msg) (attempts : Nat → ClassifierAttempt)
    (maxRetries : Nat) : List String :=
  match messages.getLast? with
  | none => allToolNames
  | some last =>
    if !last.isHuman then allToolNames
    else
      match classifierLoop attempts allToolNames maxRetries 0 with
      | .returned names => names
      | .exhausted => allToolNames
      | .raisedOut => allToolNames

/-! ## `graph/nodes.py` — `chat_node`

Each strict-mode model invocation (`create_llm(tools=filtered_tools,
strict=True)` followed by `llm.invoke`) either returns a response, raises a
rate-limit error, raises a schema / function-call validation error (the two
retried branches of the handler), or raises anything else.  The oracle
`strict` gives the outcome of the attempt with a given index; `fallback` gives
the outcome of the single no-tools, non-strict invocation (`none` meaning it
raised). -/

inductive InvOutcome where
  | ok (content : String) (tool_calls : List ToolCall)
  | rateLimit (detail : String)
  | schemaErr (detail : String)
  | otherErr (detail : String)
  deriving DecidableEq, Repr

/-- Whether an invocation outcome lands in one of the two retried
schema-error branches of `chat_node`. -/
def InvOutcome.isSchemaErr : InvOutcome → Bool
  | .schemaErr _ => true
  | _ => false

inductive ChatLoopOut where
  | returned (reply : Msg) (strictCalls : Nat)
  | exhausted (strictCalls : Nat)
  | escalated (detail : String) (strictCalls : Nat)
  deriving DecidableEq, Repr

/-- The `for attempt in range(max_retries)` loop of `chat_node`, counting the
strict-mode invocations issued: a response is returned as the new
`AIMessage`; a rate-limit error is returned to the user as an error
`AIMessage` without further retries; a schema error injects feedback and
retries; any other error is re-raised out of the loop. -/
def chatLoop (strict : Nat → InvOutcome) : Nat → Nat → Nat → ChatLoopOut
  | 0, _, calls => .exhausted calls
  | fuel + 1, k, calls =>
    match strict k with
    | .ok content tcs => .returned (Msg.ai content tcs) (calls + 1)
    | .rateLimit d => .returned (Msg.ai ("Rate limit error occurred: " ++ d) []) (calls + 1)
    | .schemaErr _ => chatLoop strict fuel (k + 1) (calls + 1)
    | .otherErr d => .escalated d (calls + 1)

/-- The result of one `chat_node` execution, instrumented with the number of
strict-mode and fallback invocations issued. -/
structure ChatRun where
  strictCalls : Nat
  fallbackCalls : Nat
  reply : Msg
  deriving DecidableEq, Repr

/-- The body of the inner `try` of `chat_node` (`.err` = an exception left the
retry loop and reached the outer handler).  The last-resort message of the
fallback handler is returned when the fallback invocation itself raises. -/
inductive ChatBodyOut where
  | ok (run : ChatRun)
  | err (detail : String) (strictCalls : Nat)
  deriving DecidableEq, Repr

/-- The terminal assistant message of the fallback handler's `except`. -/
def lastResortMsg : Msg :=
  Msg.ai ("I apologize, but I'm having trouble processing your request right now. " ++
    "Please try rephrasing your question.") []

def chatNodeBody (strict : Nat → InvOutcome) (fallback : Option Msg)
    (maxRetries : Nat) : ChatBodyOut :=
  match chatLoop strict maxRetries 0 0 with
  | .returned reply calls => .ok ⟨calls, 0, reply⟩
  | .escalated d calls => .err d calls
  | .exhausted calls =>
    match fallback with
    | some reply => .ok ⟨calls, 1, reply⟩
    | none => .ok ⟨calls, 1, lastResortMsg⟩

/-- `chat_node` as seen by its caller: `Except.error` would mean an exception
propagated out of the node, but the outer `except Exception` converts any
escaped exception into a returned error `AIMessage`. -/
def chat_node (strict : Nat → InvOutcome) (fallback : Option Msg)
    (maxRetries : Nat) : Except String ChatRun :=
  match chatNodeBody strict fallback maxRetries with
  | .ok run => .ok run
  | .err d calls => .ok ⟨calls, 0, Msg.ai ("An error occurred: " ++ d) []⟩

/-! ## `utils/analytics.py` — `calculate_conversation_stats` -/

/-- Python's `str.split()` word count used for the approximate token count. -/
def wordCount (s : String) : Nat :=
  ((s.split Char.isWhitespace).filter (fun w => w ≠ "")).length

/-- The statistics record (the two `Counter`s are kept as name multisets). -/
structure ConvStats where
  total_messages : Nat
  user_messages : Nat
  assistant_messages : Nat
  tool_calls_executed : Nat
  tool_calls_rejected : Nat
  tools_used : List String
  tools_rejected : List String
  total_tokens : Nat
  deriving DecidableEq, Repr

/-- One iteration of the `for msg in messages` loop. -/
def statsStep (s : ConvStats) (m : Msg) : ConvStats :=
  match m with
  | .human content =>
    { s with user_messages := s.user_messages + 1,
             total_tokens := s.total_tokens + wordCount content }
  | .ai content _ =>
    { s with assistant_messages := s.assistant_messages + 1,
             total_tokens := s.total_tokens + wordCount content }
  | .tool content _ name =>
    if content == rejectedContent then
      { s with tool_calls_rejected := s.tool_calls_rejected + 1,
               tools_rejected := s.tools_rejected ++ [name] }
    else
      { s with tool_calls_executed := s.tool_calls_executed + 1,
               tools_used := s.tools_used ++ [name] }
  | .system _ => s

/-- `calculate_conversation_stats(messages)`. -/
def calculate_conversation_stats (messages : List Msg) : ConvStats :=
  messages.foldl statsStep
    ⟨messages.length, 0, 0, 0, 0, [], [], 0⟩

/-! ## `tools/calculator.py` — `calculator`

The two operands are Python floats; they are embedded as rationals, which is
exact for the additive / multiplicative facts and the `second_num == 0` guard
the claims are about. -/

/-- The two dict shapes returned by the tool: a success payload echoing the
inputs with the result, or a structured error with `error_type` and
`message`. -/
inductive CalcResult where
  | success (first_num second_num : ℚ) (operation : String) (result : ℚ)
  | error (error_type : String) (message : String)
  deriving DecidableEq, Repr

/-- The `status` field present in every returned dict. -/
def CalcResult.status : CalcResult → String
  | .success _ _ _ _ => "success"
  | .error _ _ => "error"

/-- `calculator(first_num, second_num, operation)`. -/
def calculator (first_num second_num : ℚ) (operation : String) : CalcResult :=
  if operation == "add" then
    .success first_num second_num operation (first_num + second_num)
  else if operation == "sub" then
    .success first_num second_num operation (first_num - second_num)
  else if operation == "mul" then
    .success first_num second_num operation (first_num * second_num)
  else if operation == "div" then
    if second_num == 0 then
      .error "division_by_zero" "Division by zero is not allowed"
    else
      .success first_num second_num operation (first_num / second_num)
  else
    .error "invalid_operation"
      ("Unsupported operation '" ++ operation ++ "'. Use: add, sub, mul, div")

/-! ## Helper predicates for the statistics claims -/

/-- A ToolResult carrying the synthetic rejection sentence. -/
def isRejectedResult : Msg → Bool
  | .tool c _ _ => c == rejectedContent
  | _ => false

/-- A ToolResult carrying anything else (a genuine execution result). -/
def isExecutedResult : Msg → Bool
  | .tool c _ _ => !(c == rejectedContent)
  | _ => false

/-! # Theorems -/

/-- **C3.** Approval partition completeness: for every list of pending tool
calls, every approval-required name set and every value of the human-in-loop
flag, `check_approval_required` returns two lists whose concatenation is a
permutation of the input batch and which are disjoint, and a call lands in
the approval-required list exactly when approval is enabled and its name is
in the approval-required set. -/
theorem check_approval_required_partition (tool_calls : List ToolCall)
    (approvalSet : List String) (hil : Bool) :
    ((check_approval_required tool_calls approvalSet hil).1 ++
        (check_approval_required tool_calls approvalSet hil).2).Perm tool_calls
    ∧ (∀ tc, ¬(tc ∈ (check_approval_required tool_calls approvalSet hil).1 ∧
        tc ∈ (check_approval_required tool_calls approvalSet hil).2))
    ∧ (∀ tc, tc ∈ (check_approval_required tool_calls approvalSet hil).1 ↔
        (hil = true ∧ approvalSet.contains tc.name = true ∧ tc ∈ tool_calls)) := by
  cases hil with
  | false =>
    refine ⟨by simp [check_approval_required], ?_, ?_⟩
    · intro tc h
      simp [check_approval_required] at h
    · intro tc
      simp [check_approval_required]
  | true =>
    refine ⟨?_, ?_, ?_⟩
    · simpa [check_approval_required] using
        List.filter_append_perm (fun tc => approvalSet.contains tc.name) tool_calls
    · intro tc h
      obtain ⟨h1, h2⟩ := h
      simp [check_approval_required, List.mem_filter] at h1 h2
      simp [h1.2] at h2
    · intro tc
      simp [check_approval_required, List.mem_filter, and_comm]

/-- **C10.** Calculator totality and structured errors: every input yields a
structured result whose status is `"success"` or `"error"`; dividing by zero
yields a `"division_by_zero"` error, an unknown operation yields an
`"invalid_operation"` error, and `calculator(10, 5, "add")` succeeds with
result 15. -/
theorem calculator_structured_total :
    (∀ (a b : ℚ) (op : String),
        (calculator a b op).status = "success" ∨ (calculator a b op).status = "error")
    ∧ (∀ a : ℚ, calculator a 0 "div" =
        .error "division_by_zero" "Division by zero is not allowed")
    ∧ (∀ (a b : ℚ) (op : String), op ∉ (["add", "sub", "mul", "div"] : List String) →
        calculator a b op = .error "invalid_operation"
          ("Unsupported operation '" ++ op ++ "'. Use: add, sub, mul, div"))
    ∧ calculator 10 5 "add" = .success 10 5 "add" 15 := by
  refine ⟨?_, ?_, ?_, by norm_num [calculator]⟩
  · intro a b op
    unfold calculator
    split_ifs <;> simp [CalcResult.status]
  · intro a
    simp [calculator]
  · intro a b op hop
    simp only [List.mem_cons, List.not_mem_nil, or_false, not_or] at hop
    obtain ⟨h1, h2, h3, h4⟩ := hop
    simp [calculator, h1, h2, h3, h4]

/-- Witness for the hypothesis-bearing conjunct of `calculator_structured_total`:
the operation `"pow"` is outside the supported set and indeed produces a
structured `"invalid_operation"` error. -/
theorem calculator_structured_total_witness :
    ("pow" ∉ (["add", "sub", "mul", "div"] : List String))
    ∧ calculator 1 2 "pow" = .error "invalid_operation"
        "Unsupported operation 'pow'. Use: add, sub, mul, div" :=
  ⟨by decide, calculator_structured_total.2.2.1 1 2 "pow" (by decide)⟩

theorem foldl_stats_rejected (messages : List Msg) :
    ∀ s : ConvStats, (messages.foldl statsStep s).tool_calls_rejected
      = s.tool_calls_rejected + messages.countP isRejectedResult := by
  induction messages with
  | nil => intro s; simp
  | cons m tl ih =>
    intro s
    rw [List.foldl_cons, ih, List.countP_cons]
    cases m with
    | human c => simp [statsStep, isRejectedResult]
    | system c => simp [statsStep, isRejectedResult]
    | ai c tcs => simp [statsStep, isRejectedResult]
    | tool c i nm =>
      by_cases hc : c == rejectedContent
      · simp [statsStep, isRejectedResult, hc]
        omega
      · simp [statsStep, isRejectedResult, hc]

theorem foldl_stats_executed (messages : List Msg) :
    ∀ s : ConvStats, (messages.foldl statsStep s).tool_calls_executed
      = s.tool_calls_executed + messages.countP isExecutedResult := by
  induction messages with
  | nil => intro s; simp
  | cons m tl ih =>
    intro s
    rw [List.foldl_cons, ih, List.countP_cons]
    cases m with
    | human c => simp [statsStep, isExecutedResult]
    | system c => simp [statsStep, isExecutedResult]
    | ai c tcs => simp [statsStep, isExecutedResult]
    | tool c i nm =>
      by_cases hc : c == rejectedContent
      · simp [statsStep, isExecutedResult, hc]
      · simp [statsStep, isExecutedResult, hc]
        omega

theorem countP_rejected_executed (messages : List Msg) :
    messages.countP isExecutedResult + messages.countP isRejectedResult
      = messages.countP Msg.isTool := by
  induction messages with
  | nil => simp
  | cons m tl ih =>
    simp only [List.countP_cons]
    cases m with
    | human c => simp [isRejectedResult, isExecutedResult, Msg.isTool, ih]
    | system c => simp [isRejectedResult, isExecutedResult, Msg.isTool, ih]
    | ai c tcs => simp [isRejectedResult, isExecutedResult, Msg.isTool, ih]
    | tool c i nm =>
      by_cases hc : c == rejectedContent <;>
        simp [isRejectedResult, isExecutedResult, Msg.isTool, hc] <;> omega

/-- **C9.** Rejected-call statistics separation: the conversation statistics
count a ToolMessage as rejected exactly when its content equals the synthetic
rejection sentence and as executed otherwise, the two categories cover every
ToolMessage exactly once, and every synthetic result injected for a rejected
call carries exactly that sentence (so it is counted as rejected, not as
executed). -/
theorem stats_rejected_separation (messages : List Msg) :
    (calculate_conversation_stats messages).tool_calls_rejected
        = messages.countP isRejectedResult
    ∧ (calculate_conversation_stats messages).tool_calls_executed
        = messages.countP isExecutedResult
    ∧ (calculate_conversation_stats messages).tool_calls_executed
        + (calculate_conversation_stats messages).tool_calls_rejected
        = messages.countP Msg.isTool
    ∧ (∀ (history : List Msg) (rejected : List String),
        ∀ m ∈ rejectionMessages history rejected,
          isRejectedResult m = true ∧ isExecutedResult m = false) := by
  refine ⟨?_, ?_, ?_, ?_⟩
  · rw [calculate_conversation_stats, foldl_stats_rejected]
    simp
  · rw [calculate_conversation_stats, foldl_stats_executed]
    simp
  · rw [calculate_conversation_stats, foldl_stats_rejected, foldl_stats_executed]
    simpa using countP_rejected_executed messages
  · intro history rejected m hm
    simp only [rejectionMessages, List.mem_filterMap] at hm
    obtain ⟨tc, -, htc⟩ := hm
    split at htc
    · cases htc
      simp [isRejectedResult, isExecutedResult]
    · exact Option.noConfusion htc

theorem classifierLoop_all_unparseable (attempts : Nat → ClassifierAttempt)
    (valid : List String) :
    ∀ fuel k, (∀ j, j < fuel → attempts (k + j) = .unparseable) →
      classifierLoop attempts valid fuel k = .exhausted := by
  intro fuel
  induction fuel with
  | zero => intro k _; rfl
  | succ fuel ih =>
    intro k h
    have h0 : attempts k = .unparseable := by simpa using h 0 (Nat.succ_pos _)
    rw [classifierLoop, h0]
    exact ih (k + 1) fun j hj => by
      have := h (j + 1) (Nat.succ_lt_succ hj)
      simpa [Nat.add_assoc, Nat.add_comm 1 j] using this

theorem classifierLoop_raised (attempts : Nat → ClassifierAttempt)
    (valid : List String) :
    ∀ fuel k i, i < fuel → (∀ j, j < i → attempts (k + j) = .unparseable) →
      attempts (k + i) = .raised →
      classifierLoop attempts valid fuel k = .raisedOut := by
  intro fuel
  induction fuel with
  | zero => intro k i hi; exact absurd hi (Nat.not_lt_zero i)
  | succ fuel ih =>
    intro k i hi hpre hr
    cases i with
    | zero =>
      have hr0 : attempts k = ClassifierAttempt.raised := by simpa using hr
      rw [classifierLoop, hr0]
    | succ i =>
      have h0 : attempts k = .unparseable := by simpa using hpre 0 (Nat.succ_pos _)
      rw [classifierLoop, h0]
      refine ih (k + 1) i (Nat.lt_of_succ_lt_succ hi) ?_ ?_
      · intro j hj
        have := hpre (j + 1) (Nat.succ_lt_succ hj)
        simpa [Nat.add_assoc, Nat.add_comm 1 j] using this
      · have : k + 1 + i = k + (i + 1) := by omega
        rw [this]
        exact hr

/-- **C4.** Fail-open intent filtering: if every classifier attempt within the
retry bound is unparseable, or the last message of the history is not a plain
user message (or the history is empty), or an attempt raises an unexpected
error, the intent classifier returns the full catalog name set. -/
theorem intent_classifier_fail_open (messages : List Msg)
    (attempts : Nat → ClassifierAttempt) (maxRetries : Nat) :
    ((∀ j, j < maxRetries → attempts j = .unparseable) →
        intent_classifier_node messages attempts maxRetries = allToolNames)
    ∧ ((∀ last, messages.getLast? = some last → last.isHuman = false) →
        intent_classifier_node messages attempts maxRetries = allToolNames)
    ∧ (∀ i, i < maxRetries → (∀ j, j < i → attempts j = .unparseable) →
        attempts i = .raised →
        intent_classifier_node messages attempts maxRetries = allToolNames) := by
  refine ⟨?_, ?_, ?_⟩
  · intro hall
    rw [intent_classifier_node]
    cases hl : messages.getLast? with
    | none => rfl
    | some last =>
      by_cases hh : last.isHuman
      · have : classifierLoop attempts allToolNames maxRetries 0 = .exhausted :=
          classifierLoop_all_unparseable attempts allToolNames maxRetries 0
            fun j hj => by simpa using hall j hj
        simp [hh, this]
      · simp [hh]
  · intro hnh
    rw [intent_classifier_node]
    cases hl : messages.getLast? with
    | none => rfl
    | some last => simp [hnh last hl]
  · intro i hi hpre hr
    rw [intent_classifier_node]
    cases hl : messages.getLast? with
    | none => rfl
    | some last =>
      by_cases hh : last.isHuman
      · have : classifierLoop attempts allToolNames maxRetries 0 = .raisedOut :=
          classifierLoop_raised attempts allToolNames maxRetries 0 i hi
            (fun j hj => by simpa using hpre j hj) (by simpa using hr)
        simp [hh, this]
      · simp [hh]

/-- Witness for `intent_classifier_fail_open`: a single-user-message history
where all three classifier attempts are unparseable falls back to the full
catalog. -/
theorem intent_classifier_fail_open_witness :
    intent_classifier_node [Msg.human "hi"] (fun _ => ClassifierAttempt.unparseable) 3
      = allToolNames :=
  (intent_classifier_fail_open [Msg.human "hi"] (fun _ => ClassifierAttempt.unparseable) 3).1
    fun _ _ => rfl

/-- The strict-invocation count carried by a loop outcome. -/
def ChatLoopOut.calls : ChatLoopOut → Nat
  | .returned _ c => c
  | .exhausted c => c
  | .escalated _ c => c

theorem chatLoop_calls_le (strict : Nat → InvOutcome) :
    ∀ fuel k c, (chatLoop strict fuel k c).calls ≤ c + fuel := by
  intro fuel
  induction fuel with
  | zero => intro k c; simp [chatLoop, ChatLoopOut.calls]
  | succ fuel ih =>
    intro k c
    rw [chatLoop]
    cases strict k with
    | ok content tcs => simp [ChatLoopOut.calls]
    | rateLimit d => simp [ChatLoopOut.calls]
    | schemaErr d =>
      have := ih (k + 1) (c + 1)
      simpa [Nat.add_assoc, Nat.add_comm 1 fuel] using this
    | otherErr d => simp [ChatLoopOut.calls]

theorem chatLoop_exhausted (strict : Nat → InvOutcome) :
    ∀ fuel k c, (∀ j, j < fuel → (strict (k + j)).isSchemaErr = true) →
      chatLoop strict fuel k c = .exhausted (c + fuel) := by
  intro fuel
  induction fuel with
  | zero => intro k c _; rfl
  | succ fuel ih =>
    intro k c h
    have h0 : (strict k).isSchemaErr = true := by simpa using h 0 (Nat.succ_pos _)
    rw [chatLoop]
    cases hs : strict k with
    | schemaErr d =>
      have h2 := ih (k + 1) (c + 1) fun j hj => by
        have := h (j + 1) (Nat.succ_lt_succ hj)
        simpa [Nat.add_assoc, Nat.add_comm 1 j] using this
      rw [h2]
      have harith : c + 1 + fuel = c + (fuel + 1) := by omega
      rw [harith]
    | ok content tcs => rw [hs] at h0; simp [InvOutcome.isSchemaErr] at h0
    | rateLimit d => rw [hs] at h0; simp [InvOutcome.isSchemaErr] at h0
    | otherErr d => rw [hs] at h0; simp [InvOutcome.isSchemaErr] at h0

theorem chatLoop_escalated (strict : Nat → InvOutcome) :
    ∀ fuel k c i e, i < fuel → (∀ j, j < i → (strict (k + j)).isSchemaErr = true) →
      strict (k + i) = .otherErr e →
      chatLoop strict fuel k c = .escalated e (c + i + 1) := by
  intro fuel
  induction fuel with
  | zero => intro k c i e hi; exact absurd hi (Nat.not_lt_zero i)
  | succ fuel ih =>
    intro k c i e hi hpre he
    cases i with
    | zero =>
      have he0 : strict k = InvOutcome.otherErr e := by simpa using he
      rw [chatLoop, he0]
    | succ i =>
      have h0 : (strict k).isSchemaErr = true := by simpa using hpre 0 (Nat.succ_pos _)
      rw [chatLoop]
      cases hs : strict k with
      | schemaErr d =>
        have h2 := ih (k + 1) (c + 1) i e (Nat.lt_of_succ_lt_succ hi)
          (fun j hj => by
            have := hpre (j + 1) (Nat.succ_lt_succ hj)
            simpa [Nat.add_assoc, Nat.add_comm 1 j] using this)
          (by rw [show k + 1 + i = k + (i + 1) by omega]; exact he)
        rw [h2]
        have harith : c + 1 + i + 1 = c + (i + 1) + 1 := by omega
        rw [harith]
      | ok content tcs => rw [hs] at h0; simp [InvOutcome.isSchemaErr] at h0
      | rateLimit d => rw [hs] at h0; simp [InvOutcome.isSchemaErr] at h0
      | otherErr d => rw [hs] at h0; simp [InvOutcome.isSchemaErr] at h0

/-- **C5.** Retry bound respected: every execution of `chat_node` returns
(never raises) with at most `maxRetries` strict-mode invocations and at most
one fallback invocation; when every strict attempt within the bound hits a
schema error, exactly `maxRetries` strict invocations and exactly one
fallback invocation are issued, and if the fallback itself fails the node
returns the terminal apology message instead of raising. -/
theorem chat_node_retry_bound (strict : Nat → InvOutcome) (fallback : Option Msg)
    (maxRetries : Nat) :
    ∃ r : ChatRun, chat_node strict fallback maxRetries = .ok r
      ∧ r.strictCalls ≤ maxRetries
      ∧ r.fallbackCalls ≤ 1
      ∧ ((∀ j, j < maxRetries → (strict j).isSchemaErr = true) →
          r.strictCalls = maxRetries ∧ r.fallbackCalls = 1
          ∧ (fallback = none → r.reply = lastResortMsg)) := by
  have hle := chatLoop_calls_le strict maxRetries 0 0
  rw [Nat.zero_add] at hle
  cases hL : chatLoop strict maxRetries 0 0 with
  | returned reply calls =>
    refine ⟨⟨calls, 0, reply⟩, ?_, ?_, by simp, ?_⟩
    · simp [chat_node, chatNodeBody, hL]
    · simpa [hL, ChatLoopOut.calls] using hle
    · intro hall
      have := chatLoop_exhausted strict maxRetries 0 0 fun j hj => by
        simpa using hall j hj
      rw [hL] at this
      exact absurd this (by simp)
  | escalated d calls =>
    refine ⟨⟨calls, 0, Msg.ai ("An error occurred: " ++ d) []⟩, ?_, ?_, by simp, ?_⟩
    · simp [chat_node, chatNodeBody, hL]
    · simpa [hL, ChatLoopOut.calls] using hle
    · intro hall
      have := chatLoop_exhausted strict maxRetries 0 0 fun j hj => by
        simpa using hall j hj
      rw [hL] at this
      exact absurd this (by simp)
  | exhausted calls =>
    cases fallback with
    | some reply =>
      refine ⟨⟨calls, 1, reply⟩, ?_, ?_, by simp, ?_⟩
      · simp [chat_node, chatNodeBody, hL]
      · simpa [hL, ChatLoopOut.calls] using hle
      · intro hall
        have := chatLoop_exhausted strict maxRetries 0 0 fun j hj => by
          simpa using hall j hj
        rw [hL] at this
        cases this
        exact ⟨by simp, rfl, by intro h; cases h⟩
    | none =>
      refine ⟨⟨calls, 1, lastResortMsg⟩, ?_, ?_, by simp, ?_⟩
      · simp [chat_node, chatNodeBody, hL]
      · simpa [hL, ChatLoopOut.calls] using hle
      · intro hall
        have := chatLoop_exhausted strict maxRetries 0 0 fun j hj => by
          simpa using hall j hj
        rw [hL] at this
        cases this
        exact ⟨by simp, rfl, fun _ => rfl⟩

/-- Witness for `chat_node_retry_bound`: with three schema-error attempts and
a failing fallback, exactly three strict invocations and one fallback
invocation happen and the apology message is returned. -/
theorem chat_node_retry_bound_witness :
    ∃ r : ChatRun,
      chat_node (fun _ => InvOutcome.schemaErr "bad") none 3 = .ok r
      ∧ r.strictCalls = 3 ∧ r.fallbackCalls = 1 ∧ r.reply = lastResortMsg := by
  obtain ⟨r, h1, -, -, h4⟩ :=
    chat_node_retry_bound (fun _ => InvOutcome.schemaErr "bad") none 3
  obtain ⟨h5, h6, h7⟩ := h4 fun j _ => rfl
  exact ⟨r, h1, h5, h6, h7 rfl⟩

/-- **C6 counterexample.** An unclassified model error is *not* propagated to
the caller: with the first strict invocation raising an unclassified error,
`chat_node` returns normally with an error-reporting assistant message and is
not an exception (`Except.error`) for any payload. -/
theorem chat_node_other_error_counterexample :
    chat_node (fun k => if k == 0 then InvOutcome.otherErr "boom" else InvOutcome.ok "" [])
        none 3
      = .ok ⟨1, 0, Msg.ai "An error occurred: boom" []⟩
    ∧ ∀ e, chat_node
        (fun k => if k == 0 then InvOutcome.otherErr "boom" else InvOutcome.ok "" []) none 3
      ≠ .error e := by
  refine ⟨by rfl, ?_⟩
  intro e h
  rw [show chat_node
      (fun k => if k == 0 then InvOutcome.otherErr "boom" else InvOutcome.ok "" []) none 3
      = .ok ⟨1, 0, Msg.ai "An error occurred: boom" []⟩ from rfl] at h
  exact Except.noConfusion h

/-- **C6 as amended.** Unclassified-error conversion: a model-invocation error
that is neither a rate-limit nor a schema error is re-raised out of the retry
loop but caught by the node's outer handler, which returns an assistant
message reporting the error instead of propagating the exception. -/
theorem chat_node_other_error_returned (strict : Nat → InvOutcome)
    (fallback : Option Msg) (maxRetries : Nat) (i : Nat) (e : String)
    (hi : i < maxRetries) (hpre : ∀ j, j < i → (strict j).isSchemaErr = true)
    (he : strict i = .otherErr e) :
    chat_node strict fallback maxRetries
      = .ok ⟨i + 1, 0, Msg.ai ("An error occurred: " ++ e) []⟩ := by
  have := chatLoop_escalated strict maxRetries 0 0 i e hi
    (fun j hj => by simpa using hpre j hj) (by simpa using he)
  simp [chat_node, chatNodeBody, this]

/-- Witness for `chat_node_other_error_returned`: a concrete run whose second
attempt raises an unclassified error after one schema error. -/
theorem chat_node_other_error_returned_witness :
    chat_node
        (fun k => if k == 0 then InvOutcome.schemaErr "s" else InvOutcome.otherErr "boom")
        none 3
      = .ok ⟨2, 0, Msg.ai "An error occurred: boom" []⟩ :=
  chat_node_other_error_returned
    (fun k => if k == 0 then InvOutcome.schemaErr "s" else InvOutcome.otherErr "boom")
    none 3 1 "boom" (by decide)
    (fun j hj => by interval_cases j <;> rfl) rfl

theorem mem_existingToolIds_iff (messages : List Msg) (i : String) :
    i ∈ existingToolIds messages ↔ 0 < resultCount messages i := by
  rw [existingToolIds, resultCount, List.countP_pos_iff]
  constructor
  · intro h
    rw [List.mem_filterMap] at h
    obtain ⟨m, hm, hmi⟩ := h
    refine ⟨m, hm, ?_⟩
    cases m with
    | tool c id nm => simp at hmi; simp [hmi]
    | human c => simp at hmi
    | system c => simp at hmi
    | ai c tcs => simp at hmi
  · intro h
    obtain ⟨m, hm, hp⟩ := h
    rw [List.mem_filterMap]
    refine ⟨m, hm, ?_⟩
    cases m with
    | tool c id nm => simp at hp; simp [hp]
    | human c => simp at hp
    | system c => simp at hp
    | ai c tcs => simp at hp

theorem filteredToolNodeCall_eq_map (exec : ToolCall → String) (messages : List Msg) :
    filteredToolNodeCall exec messages
      = (filteredToolCalls messages).map (fun tc => Msg.tool (exec tc) tc.id tc.name) := by
  cases hA : lastAIWithToolCalls messages with
  | none =>
    simp [filteredToolNodeCall, filteredToolCalls, pendingBatch, hA]
  | some m =>
    by_cases hf : (filteredToolCalls messages).isEmpty
    · rw [List.isEmpty_iff] at hf
      simp [filteredToolNodeCall, hA, hf]
    · simp [filteredToolNodeCall, hA, hf]

/-- **C1.** At-most-once tool execution: the `FilteredToolNode` executes only
calls of the last assistant batch whose identifier has no ToolResult anywhere
in the history, so appending its output to the history preserves the
invariant that an identifier has at most one ToolResult (assuming the batch
carries pairwise distinct identifiers); and when the filtered batch is empty
it returns an empty result set without invoking the underlying `ToolNode`. -/
theorem tool_executor_at_most_once (exec : ToolCall → String) (messages : List Msg)
    (i : String)
    (hnodup : ((pendingBatch messages).map ToolCall.id).Nodup)
    (hprev : resultCount messages i ≤ 1) :
    resultCount (messages ++ filteredToolNodeCall exec messages) i ≤ 1
    ∧ (∀ tc ∈ filteredToolCalls messages, tc.id ∉ existingToolIds messages)
    ∧ (filteredToolCalls messages = [] →
        filteredToolNodeCall exec messages = [] ∧ invokedCalls messages = []) := by
  have hmemfilt : ∀ tc ∈ filteredToolCalls messages, tc.id ∉ existingToolIds messages := by
    intro tc htc
    have := List.of_mem_filter htc
    simpa using this
  refine ⟨?_, hmemfilt, ?_⟩
  · have happ : resultCount (messages ++ filteredToolNodeCall exec messages) i
        = resultCount messages i + resultCount (filteredToolNodeCall exec messages) i := by
      rw [resultCount, resultCount, resultCount, List.countP_append]
    have hnew : resultCount (filteredToolNodeCall exec messages) i
        = (filteredToolCalls messages).countP (fun tc => tc.id == i) := by
      rw [filteredToolNodeCall_eq_map, resultCount, List.countP_map]
      rfl
    by_cases hz : 0 < resultCount messages i
    · have himem : i ∈ existingToolIds messages := (mem_existingToolIds_iff messages i).mpr hz
      have hzero : (filteredToolCalls messages).countP (fun tc => tc.id == i) = 0 := by
        rw [List.countP_eq_zero]
        intro tc htc
        have hne : tc.id ≠ i := fun hid => (hmemfilt tc htc) (hid ▸ himem)
        simpa using hne
      rw [happ, hnew, hzero]
      omega
    · have hz0 : resultCount messages i = 0 := by omega
      have hle1 : (filteredToolCalls messages).countP (fun tc => tc.id == i) ≤ 1 := by
        have hsub : (filteredToolCalls messages).countP (fun tc => tc.id == i)
            ≤ (pendingBatch messages).countP (fun tc => tc.id == i) :=
          List.Sublist.countP_le _ (List.filter_sublist _)
        have hcnt : (pendingBatch messages).countP (fun tc => tc.id == i)
            = ((pendingBatch messages).map ToolCall.id).count i := by
          rw [List.count, List.countP_map]
          rfl
        have := List.nodup_iff_count_le_one.mp hnodup i
        omega
      rw [happ, hnew, hz0]
      omega
  · intro h
    cases hA : lastAIWithToolCalls messages with
    | none => exact ⟨by simp [filteredToolNodeCall, hA], by simp [invokedCalls, hA]⟩
    | some m =>
      exact ⟨by simp [filteredToolNodeCall, hA, h], by simp [invokedCalls, hA, h]⟩

/-- Witness for `tool_executor_at_most_once`: a history where call `"1"` of
the batch already has its ToolResult and call `"2"` does not. -/
theorem tool_executor_at_most_once_witness :
    ((pendingBatch [Msg.human "q",
        Msg.ai "" [⟨"calculator", "", "1"⟩, ⟨"get_weather", "", "2"⟩],
        Msg.tool "r1" "1" "calculator"]).map ToolCall.id).Nodup
    ∧ resultCount [Msg.human "q",
        Msg.ai "" [⟨"calculator", "", "1"⟩, ⟨"get_weather", "", "2"⟩],
        Msg.tool "r1" "1" "calculator"] "1" ≤ 1
    ∧ resultCount ([Msg.human "q",
        Msg.ai "" [⟨"calculator", "", "1"⟩, ⟨"get_weather", "", "2"⟩],
        Msg.tool "r1" "1" "calculator"]
        ++ filteredToolNodeCall (fun _ => "res") [Msg.human "q",
          Msg.ai "" [⟨"calculator", "", "1"⟩, ⟨"get_weather", "", "2"⟩],
          Msg.tool "r1" "1" "calculator"]) "1" ≤ 1 :=
  ⟨by decide, by decide,
    (tool_executor_at_most_once (fun _ => "res")
      [Msg.human "q", Msg.ai "" [⟨"calculator", "", "1"⟩, ⟨"get_weather", "", "2"⟩],
        Msg.tool "r1" "1" "calculator"] "1" (by decide) (by decide)).1⟩

/-- **C7 counterexample.** The compiled graph does *not* suspend only when
approval is needed: with human-in-loop disabled, a turn requesting the
`calculator` tool has `needs_approval = false` and yet the graph still hands
control back before tool execution (`interrupt_before=["tools"]` is
unconditional). -/
theorem suspension_counterexample :
    turnSuspendsBeforeTools
        [Msg.human "q", Msg.ai "" [⟨"calculator", "", "1"⟩]]
        ["file_operations", "web_search"] false = true
    ∧ (approval_check_node [Msg.human "q", Msg.ai "" [⟨"calculator", "", "1"⟩]]
        ["file_operations", "web_search"] false).needs_approval = false := by
  decide

/-- **C7 as amended.** The graph returns control to the caller before tool
execution exactly when the turn's assistant response carries pending tool
calls — regardless of `needs_approval`, since the compiled interrupt fires
before the `tools` node on every path and both approval routes target that
node; a *human decision* is awaited by the UI layer exactly when
`needs_approval` is true. -/
theorem suspension_before_tools_amended (messages : List Msg)
    (approvalSet : List String) (hil : Bool) :
    (turnSuspendsBeforeTools messages approvalSet hil = true ↔
      (∃ c tcs, messages.getLast? = some (Msg.ai c tcs) ∧ tcs ≠ []))
    ∧ uiAwaitsHuman (approval_check_node messages approvalSet hil)
        = (approval_check_node messages approvalSet hil).needs_approval := by
  constructor
  · cases hl : messages.getLast? with
    | none => simp [turnSuspendsBeforeTools, tools_condition, hl, chatNodeEdge]
    | some m =>
      cases m with
      | ai c tcs =>
        by_cases ht : tcs = []
        · simp [turnSuspendsBeforeTools, tools_condition, hl, chatNodeEdge, ht]
        · have hsusp : turnSuspendsBeforeTools messages approvalSet hil = true := by
            simp [turnSuspendsBeforeTools, tools_condition, hl, ht, chatNodeEdge,
              approvalCheckEdge, interruptBeforeNodes]
          rw [hsusp]
          simp only [true_iff]
          exact ⟨c, tcs, rfl, ht⟩
      | human c => simp [turnSuspendsBeforeTools, tools_condition, hl, chatNodeEdge]
      | system c => simp [turnSuspendsBeforeTools, tools_condition, hl, chatNodeEdge]
      | tool c i nm => simp [turnSuspendsBeforeTools, tools_condition, hl, chatNodeEdge]
  · rw [approval_check_node]
    by_cases hp : (extract_pending_tools messages).isEmpty
    · simp [hp, uiAwaitsHuman]
    · simp only [hp, if_false, Bool.false_eq_true]
      by_cases hn :
          ((check_approval_required (extract_pending_tools messages) approvalSet hil).1).isEmpty
      · simp [hn, uiAwaitsHuman]
      · simp [hn, uiAwaitsHuman]
theorem turnPairsRev_zero : ∀ l : List Msg, turnPairsRev l 0 = [] := by
  intro l
  cases l <;> simp [turnPairsRev]

theorem turnPairsRev_step_ai_some (m : Msg) (rest : List Msg) (b : Nat) (hm : Msg)
    (rest' : List Msg) (hA : m.isAI = true)
    (hf : splitAtFirstHuman rest = some (hm, rest')) :
    turnPairsRev (m :: rest) (b + 1) = (hm, m) :: turnPairsRev rest' b := by
  rw [turnPairsRev, if_pos hA, hf]

theorem turnPairsRev_step_ai_none (m : Msg) (rest : List Msg) (b : Nat)
    (hA : m.isAI = true) (hf : splitAtFirstHuman rest = none) :
    turnPairsRev (m :: rest) (b + 1) = turnPairsRev rest (b + 1) := by
  rw [turnPairsRev, if_pos hA, hf]

theorem turnPairsRev_step_not_ai (m : Msg) (rest : List Msg) (b : Nat)
    (hA : ¬ m.isAI = true) :
    turnPairsRev (m :: rest) (b + 1) = turnPairsRev rest (b + 1) := by
  rw [turnPairsRev, if_neg hA]

theorem turnsLoop_step_stop (messages : List Msg) (n fuel i : Nat) (turns : List Msg)
    (hstop : n ≤ turns.length / 2) :
    turnsLoop messages n (fuel + 1) (i + 1) turns = turns := by
  rw [turnsLoop, if_pos hstop]

theorem turnsLoop_step_ai_some (messages : List Msg) (n fuel i : Nat) (turns : List Msg)
    (j : Nat) (hstop : ¬ n ≤ turns.length / 2)
    (hA : (messages.getD i noMsg).isAI = true)
    (hf : findHumanBelow messages i = some j) :
    turnsLoop messages n (fuel + 1) (i + 1) turns
      = turnsLoop messages n fuel j
          (messages.getD j noMsg :: messages.getD i noMsg :: turns) := by
  rw [turnsLoop, if_neg hstop, if_pos hA, hf]

theorem turnsLoop_step_ai_none (messages : List Msg) (n fuel i : Nat) (turns : List Msg)
    (hstop : ¬ n ≤ turns.length / 2)
    (hA : (messages.getD i noMsg).isAI = true)
    (hf : findHumanBelow messages i = none) :
    turnsLoop messages n (fuel + 1) (i + 1) turns = turnsLoop messages n fuel i turns := by
  rw [turnsLoop, if_neg hstop, if_pos hA, hf]

theorem turnsLoop_step_not_ai (messages : List Msg) (n fuel i : Nat) (turns : List Msg)
    (hstop : ¬ n ≤ turns.length / 2)
    (hA : ¬ (messages.getD i noMsg).isAI = true) :
    turnsLoop messages n (fuel + 1) (i + 1) turns = turnsLoop messages n fuel i turns := by
  rw [turnsLoop, if_neg hstop, if_neg hA]

theorem renderTurns_append (l1 l2 : List (Msg × Msg)) :
    renderTurns (l1 ++ l2) = renderTurns l1 ++ renderTurns l2 := by
  induction l1 with
  | nil => simp [renderTurns]
  | cons p ps ih => simp [renderTurns, ih]

theorem take_succ_reverse (messages : List Msg) (i : Nat) (h : i < messages.length) :
    (messages.take (i + 1)).reverse = messages.getD i noMsg :: (messages.take i).reverse := by
  rw [List.take_succ, List.getElem?_eq_getElem h, List.reverse_append]
  simp [List.getD_eq_getElem?_getD, List.getElem?_eq_getElem h]

theorem findHumanDown_eq (messages : List Msg) (i : Nat) :
    findHumanDown messages i
      = if (messages.getD i noMsg).isHuman then some i else findHumanBelow messages i := by
  cases i <;> simp [findHumanDown, findHumanBelow]

theorem splitAtFirstHuman_take (messages : List Msg) :
    ∀ i, i ≤ messages.length →
      splitAtFirstHuman ((messages.take i).reverse)
        = (findHumanBelow messages i).map
            (fun j => (messages.getD j noMsg, (messages.take j).reverse)) := by
  intro i
  induction i with
  | zero => intro _; simp [splitAtFirstHuman, findHumanBelow]
  | succ i ih =>
    intro hle
    have hi : i < messages.length := hle
    rw [take_succ_reverse messages i hi]
    rw [show findHumanBelow messages (i + 1) = findHumanDown messages i from rfl,
      findHumanDown_eq]
    by_cases hh : (messages.getD i noMsg).isHuman
    · rw [splitAtFirstHuman, if_pos hh, if_pos hh]
      rfl
    · rw [splitAtFirstHuman, if_neg hh, if_neg hh]
      exact ih (Nat.le_of_lt hi)

theorem turnsLoop_spec (messages : List Msg) (n : Nat) :
    ∀ fuel p, p ≤ fuel → p ≤ messages.length → ∀ turns,
      turnsLoop messages n fuel p turns
        = renderTurns ((turnPairsRev ((messages.take p).reverse)
            (n - turns.length / 2)).reverse) ++ turns := by
  intro fuel
  induction fuel with
  | zero =>
    intro p hpf _ turns
    have hp0 : p = 0 := by omega
    subst hp0
    simp [turnsLoop, turnPairsRev, renderTurns]
  | succ fuel ih =>
    intro p hpf hpl turns
    cases p with
    | zero => simp [turnsLoop, turnPairsRev, renderTurns]
    | succ i =>
      have hi : i < messages.length := hpl
      rw [take_succ_reverse messages i hi]
      by_cases hstop : n ≤ turns.length / 2
      · rw [turnsLoop_step_stop messages n fuel i turns hstop]
        have hb : n - turns.length / 2 = 0 := by omega
        rw [hb, turnPairsRev_zero]
        simp [renderTurns]
      · obtain ⟨b, hbeq⟩ : ∃ b, n - turns.length / 2 = b + 1 :=
          ⟨n - turns.length / 2 - 1, by omega⟩
        rw [hbeq]
        by_cases hA : (messages.getD i noMsg).isAI
        · cases hf : findHumanBelow messages i with
          | some j =>
            have hji : j < i := findHumanBelow_lt hf
            rw [turnsLoop_step_ai_some messages n fuel i turns j hstop hA hf]
            rw [ih j (by omega) (by omega)
              (messages.getD j noMsg :: messages.getD i noMsg :: turns)]
            rw [turnPairsRev_step_ai_some (messages.getD i noMsg)
              ((messages.take i).reverse) b (messages.getD j noMsg)
              ((messages.take j).reverse) hA
              (by rw [splitAtFirstHuman_take messages i (Nat.le_of_lt hi), hf]; rfl)]
            have hlen :
                n - (messages.getD j noMsg :: messages.getD i noMsg :: turns).length / 2
                  = b := by
              simp only [List.length_cons]
              omega
            rw [hlen, List.reverse_cons, renderTurns_append, List.append_assoc]
            rfl
          | none =>
            rw [turnsLoop_step_ai_none messages n fuel i turns hstop hA hf]
            rw [ih i (by omega) (by omega) turns, hbeq]
            rw [turnPairsRev_step_ai_none (messages.getD i noMsg)
              ((messages.take i).reverse) b hA
              (by rw [splitAtFirstHuman_take messages i (Nat.le_of_lt hi), hf]; rfl)]
        · rw [turnsLoop_step_not_ai messages n fuel i turns hstop hA]
          rw [ih i (by omega) (by omega) turns, hbeq]
          rw [turnPairsRev_step_not_ai (messages.getD i noMsg)
            ((messages.take i).reverse) b hA]

/-- **C8 counterexample.** The turn extraction does *not* skip assistant
messages with pending tool calls: on a history ending with an assistant
message that still carries a tool call, that assistant message is selected
and paired with the preceding user message. -/
theorem turn_extraction_counterexample :
    extract_last_n_turns [Msg.human "hi", Msg.ai "x" [⟨"calculator", "", "1"⟩]] 5
      = [Msg.human "hi", Msg.ai "x" [⟨"calculator", "", "1"⟩]]
    ∧ (Msg.ai "x" [⟨"calculator", "", "1"⟩]) ∈
        extract_last_n_turns [Msg.human "hi", Msg.ai "x" [⟨"calculator", "", "1"⟩]] 5 := by
  constructor
  · rfl
  · rw [show extract_last_n_turns [Msg.human "hi", Msg.ai "x" [⟨"calculator", "", "1"⟩]] 5
        = [Msg.human "hi", Msg.ai "x" [⟨"calculator", "", "1"⟩]] from rfl]
    simp

theorem turnPairsRev_length_le_aux :
    ∀ (k : Nat) (l : List Msg), l.length ≤ k → ∀ b, (turnPairsRev l b).length ≤ b := by
  intro k
  induction k with
  | zero =>
    intro l hl b
    have : l = [] := List.length_eq_zero.mp (by omega)
    subst this
    simp [turnPairsRev]
  | succ k ih =>
    intro l hl b
    cases l with
    | nil => simp [turnPairsRev]
    | cons m rest =>
      have hrest : rest.length ≤ k := by
        simp only [List.length_cons] at hl
        omega
      cases b with
      | zero => simp [turnPairsRev_zero]
      | succ b =>
        by_cases hA : m.isAI
        · cases hf : splitAtFirstHuman rest with
          | some pr =>
            rw [turnPairsRev_step_ai_some m rest b pr.1 pr.2 hA (by rw [hf])]
            have hlt : pr.2.length < rest.length := splitAtFirstHuman_length (by rw [hf])
            have := ih pr.2 (by omega) b
            simp only [List.length_cons]
            omega
          | none =>
            rw [turnPairsRev_step_ai_none m rest b hA hf]
            exact ih rest hrest (b + 1)
        · rw [turnPairsRev_step_not_ai m rest b hA]
          exact ih rest hrest (b + 1)

/-- **C8 as amended.** Turn extraction: the extraction walks the history
backward and pairs each assistant message it encounters — whether or not it
carries pending tool calls — with the nearest preceding user message,
discards assistant messages with no preceding user message, and returns at
most `n` user/assistant pairs in chronological order (the reverse-scan
description `extractTurnsSpec`). -/
theorem turn_extraction_amended (messages : List Msg) (n : Nat) :
    extract_last_n_turns messages n = extractTurnsSpec messages n
    ∧ (turnPairsRev messages.reverse n).length ≤ n := by
  constructor
  · rw [extract_last_n_turns, extractTurnsSpec,
      turnsLoop_spec messages n messages.length messages.length
        (Nat.le_refl _) (Nat.le_refl _) []]
    simp [List.take_length]
  · exact turnPairsRev_length_le_aux messages.reverse.length messages.reverse
      (Nat.le_refl _) n

/-- The full "Submit Decisions" resume pipeline of `render_approval_ui`:
the pending approval-required calls (the partition stored by
`approval_check_node`) and the per-tool decision map are turned into approved
and rejected name lists — every undecided pending name appended to the
rejected list — and `handle_approval_and_resume` is invoked with them. -/
def uiSubmitAndResume (messages : List Msg) (approvalSet : List String)
    (decisions : List (String × Bool)) : List ToolCall :=
  let pending := (check_approval_required (pendingBatch messages) approvalSet true).1
  let ar := submitDecisions pending decisions
  resumeExecutedCalls messages ar.1 ar.2

/-- **C2 counterexample.** `handle_approval_and_resume` alone does *not*
treat an undecided tool as rejected: with batch
`calculator / web_search / file_operations`, only `calculator` approved and
only `web_search` rejected, the undecided `file_operations` call *is*
executed by the resumed tool node. -/
theorem undecided_tool_executed_counterexample :
    resumeExecutedCalls
        [Msg.human "hi", Msg.ai "" [⟨"calculator", "", "1"⟩, ⟨"web_search", "", "2"⟩,
          ⟨"file_operations", "", "3"⟩]]
        ["calculator"] ["web_search"]
      = [⟨"calculator", "", "1"⟩, ⟨"file_operations", "", "3"⟩]
    ∧ (⟨"file_operations", "", "3"⟩ : ToolCall) ∈ resumeExecutedCalls
        [Msg.human "hi", Msg.ai "" [⟨"calculator", "", "1"⟩, ⟨"web_search", "", "2"⟩,
          ⟨"file_operations", "", "3"⟩]]
        ["calculator"] ["web_search"] := by
  constructor
  · rfl
  · rw [show resumeExecutedCalls
        [Msg.human "hi", Msg.ai "" [⟨"calculator", "", "1"⟩, ⟨"web_search", "", "2"⟩,
          ⟨"file_operations", "", "3"⟩]]
        ["calculator"] ["web_search"]
      = [⟨"calculator", "", "1"⟩, ⟨"file_operations", "", "3"⟩] from rfl]
    simp

theorem find?_append_left_none {α} (p : α → Bool) (l1 l2 : List α)
    (h : ∀ x ∈ l1, p x = false) : (l1 ++ l2).find? p = l2.find? p := by
  induction l1 with
  | nil => rfl
  | cons a l ih =>
    rw [List.cons_append,
      List.find?_cons_of_neg _ (by simp [h a (List.mem_cons_self a l)])]
    exact ih fun x hx => h x (List.mem_cons_of_mem a hx)

theorem rejectionMessages_isTool (messages : List Msg) (rejected : List String) :
    ∀ m ∈ rejectionMessages messages rejected, Msg.isTool m = true := by
  intro m hm
  simp only [rejectionMessages, List.mem_filterMap] at hm
  obtain ⟨tc, -, htc⟩ := hm
  split at htc
  · cases htc
    rfl
  · exact Option.noConfusion htc

theorem lastAI_append_tools (messages extra : List Msg)
    (h : ∀ m ∈ extra, Msg.isTool m = true) :
    lastAIWithToolCalls (messages ++ extra) = lastAIWithToolCalls messages := by
  rw [lastAIWithToolCalls, lastAIWithToolCalls, List.reverse_append]
  apply find?_append_left_none
  intro x hx
  have hxt := h x (List.mem_reverse.mp hx)
  cases x with
  | tool c i nm => rfl
  | human c => exact absurd hxt (by simp [Msg.isTool])
  | system c => exact absurd hxt (by simp [Msg.isTool])
  | ai c tcs => exact absurd hxt (by simp [Msg.isTool])

theorem pendingBatch_append_tools (messages extra : List Msg)
    (h : ∀ m ∈ extra, Msg.isTool m = true) :
    pendingBatch (messages ++ extra) = pendingBatch messages := by
  rw [pendingBatch, pendingBatch, lastAI_append_tools messages extra h]

theorem invokedCalls_eq_filtered (messages : List Msg) :
    invokedCalls messages = filteredToolCalls messages := by
  cases hA : lastAIWithToolCalls messages with
  | none => simp [invokedCalls, filteredToolCalls, pendingBatch, hA]
  | some m =>
    by_cases hf : (filteredToolCalls messages).isEmpty
    · rw [List.isEmpty_iff] at hf
      simp [invokedCalls, hA, hf]
    · simp [invokedCalls, hA, hf]

theorem mem_rejectionIds (messages : List Msg) (rejected : List String) (i : String) :
    i ∈ existingToolIds (rejectionMessages messages rejected)
      ↔ ∃ tc ∈ pendingBatch messages, tc.name ∈ rejected ∧ tc.id = i := by
  rw [existingToolIds, rejectionMessages, List.filterMap_filterMap, List.mem_filterMap]
  constructor
  · rintro ⟨tc, htc, hopt⟩
    refine ⟨tc, htc, ?_⟩
    by_cases hr : tc.name ∈ rejected
    · simp [hr] at hopt
      exact ⟨hr, hopt⟩
    · simp [hr] at hopt
  · rintro ⟨tc, htc, hr, hid⟩
    exact ⟨tc, htc, by simp [hr, hid]⟩


theorem mem_submitDecisions_rejected (pending : List ToolCall)
    (decisions : List (String × Bool)) (nm : String) :
    nm ∈ (submitDecisions pending decisions).2
      ↔ ((nm, false) ∈ decisions
         ∨ (nm ∈ pending.map ToolCall.name ∧ nm ∉ decisions.map Prod.fst)) := by
  simp only [submitDecisions, List.mem_append, List.mem_map, List.mem_filter,
    List.mem_dedup]
  constructor
  · rintro (⟨p, ⟨hp, hp2⟩, hp1⟩ | ⟨⟨tc, htc, hname⟩, hkey⟩)
    · left
      obtain ⟨pa, pb⟩ := p
      simp at hp1 hp2
      subst hp1
      subst hp2
      exact hp
    · right
      refine ⟨⟨tc, htc, hname⟩, ?_⟩
      simp only [Bool.not_eq_true'] at hkey
      rintro ⟨a, ha, ha1⟩
      have hmem : nm ∈ decisions.map Prod.fst := ha1 ▸ List.mem_map_of_mem Prod.fst ha
      have hc : (decisions.map Prod.fst).contains nm = true := List.elem_iff.mpr hmem
      rw [hkey] at hc
      exact absurd hc (by simp)
  · rintro (hmem | ⟨⟨tc, htc, hname⟩, hkey⟩)
    · exact Or.inl ⟨(nm, false), ⟨hmem, rfl⟩, rfl⟩
    · refine Or.inr ⟨⟨tc, htc, hname⟩, ?_⟩
      simp only [Bool.not_eq_true']
      cases h' : (decisions.map Prod.fst).contains nm
      · rfl
      · have hmem2 : nm ∈ decisions.map Prod.fst := List.elem_iff.mp h'
        simp only [List.mem_map] at hmem2
        obtain ⟨a, ha, ha1⟩ := hmem2
        exact absurd ⟨a, ha, ha1⟩ hkey


theorem existingToolIds_append (a b : List Msg) :
    existingToolIds (a ++ b) = existingToolIds a ++ existingToolIds b := by
  rw [existingToolIds, existingToolIds, existingToolIds, List.filterMap_append]

/-- **C2 as amended.** Undecided-tool safety holds for the full
submit-decisions pipeline: the approval UI appends every undecided pending
tool name to the rejected list before resuming, so after the resume step the
executed calls are exactly the auto-approved calls plus the explicitly
approved ones — in particular a pending approval-required call with no
decision is treated as rejected and is not executed.
(`handle_approval_and_resume` alone executes every call not explicitly
rejected, as the counterexample shows.)  Hypotheses: the batch identifiers
are pairwise distinct and have no prior results, and every decision key is a
pending tool name. -/
theorem undecided_tool_rejected_amended (messages : List Msg) (approvalSet : List String)
    (decisions : List (String × Bool))
    (hids : ((pendingBatch messages).map ToolCall.id).Nodup)
    (hfresh : ∀ tc ∈ pendingBatch messages, tc.id ∉ existingToolIds messages)
    (hkeys : (decisions.map Prod.fst).Nodup)
    (hdom : ∀ q ∈ decisions, q.1 ∈
        ((check_approval_required (pendingBatch messages) approvalSet true).1).map
          ToolCall.name) :
    uiSubmitAndResume messages approvalSet decisions
      = (pendingBatch messages).filter
          (fun tc => !approvalSet.contains tc.name || decisions.contains (tc.name, true))
    ∧ ∀ tc ∈ (check_approval_required (pendingBatch messages) approvalSet true).1,
        (∀ b : Bool, (tc.name, b) ∉ decisions) →
          tc ∉ uiSubmitAndResume messages approvalSet decisions := by
  have hneed : (check_approval_required (pendingBatch messages) approvalSet true).1
      = (pendingBatch messages).filter (fun tc => approvalSet.contains tc.name) := by
    simp [check_approval_required]
  set rejected := (submitDecisions
      ((check_approval_required (pendingBatch messages) approvalSet true).1) decisions).2
    with hrejdef
  have hstepA : uiSubmitAndResume messages approvalSet decisions
      = (pendingBatch messages).filter
          (fun tc => !(existingToolIds messages
              ++ existingToolIds (rejectionMessages messages rejected)).contains tc.id) := by
    simp only [uiSubmitAndResume, resumeExecutedCalls]
    rw [invokedCalls_eq_filtered, filteredToolCalls,
      pendingBatch_append_tools _ _ (rejectionMessages_isTool _ _),
      existingToolIds_append]
  -- every decision key is a name in the approval-required set
  have hkeyapp : ∀ nm, nm ∈ decisions.map Prod.fst → nm ∈ approvalSet := by
    intro nm h
    simp only [List.mem_map] at h
    obtain ⟨q, hq, hq1⟩ := h
    have := hdom q hq
    rw [hneed] at this
    simp only [List.mem_map, List.mem_filter] at this
    obtain ⟨tc2, ⟨-, hp⟩, hnm⟩ := this
    exact List.elem_iff.mp (by rw [← hq1, ← hnm]; exact hp)
  have hpoint : ∀ tc ∈ pendingBatch messages,
      (!(existingToolIds messages
          ++ existingToolIds (rejectionMessages messages rejected)).contains tc.id)
        = (!approvalSet.contains tc.name || decisions.contains (tc.name, true)) := by
    intro tc htc
    have hCid_mem : tc.id ∈ (existingToolIds messages
        ++ existingToolIds (rejectionMessages messages rejected)) ↔ tc.name ∈ rejected := by
      rw [List.mem_append]
      constructor
      · rintro (h1 | h2)
        · exact absurd h1 (hfresh tc htc)
        · obtain ⟨tc2, htc2, hr2, hid2⟩ := (mem_rejectionIds messages rejected tc.id).mp h2
          have heq : tc2 = tc := List.inj_on_of_nodup_map hids htc2 htc hid2
          exact heq ▸ hr2
      · intro hr
        exact Or.inr ((mem_rejectionIds messages rejected tc.id).mpr ⟨tc, htc, hr, rfl⟩)
    have hCid : ((existingToolIds messages
        ++ existingToolIds (rejectionMessages messages rejected)).contains tc.id = true)
        ↔ tc.name ∈ rejected := (List.elem_iff).trans hCid_mem
    have hRiff : tc.name ∈ rejected
        ↔ (tc.name ∈ approvalSet ∧ (tc.name, true) ∉ decisions) := by
      rw [hrejdef, mem_submitDecisions_rejected]
      constructor
      · rintro (hfmem | ⟨hneedmem, hnkey⟩)
        · refine ⟨hkeyapp tc.name (List.mem_map_of_mem Prod.fst hfmem), ?_⟩
          intro hDt
          have := List.inj_on_of_nodup_map hkeys hfmem hDt rfl
          simp at this
        · constructor
          · rw [hneed] at hneedmem
            simp only [List.mem_map, List.mem_filter] at hneedmem
            obtain ⟨tc2, ⟨-, hp⟩, hnm⟩ := hneedmem
            exact List.elem_iff.mp (hnm ▸ hp)
          · intro hDt
            exact hnkey (List.mem_map_of_mem Prod.fst hDt)
      · rintro ⟨hCp, hDp⟩
        by_cases hk : tc.name ∈ decisions.map Prod.fst
        · simp only [List.mem_map] at hk
          obtain ⟨q, hq, hq1⟩ := hk
          obtain ⟨q1, q2⟩ := q
          simp only at hq1
          subst hq1
          cases q2 with
          | true => exact absurd hq hDp
          | false => exact Or.inl hq
        · refine Or.inr ⟨?_, hk⟩
          rw [hneed]
          exact List.mem_map_of_mem ToolCall.name
            (List.mem_filter.mpr ⟨htc, List.elem_iff.mpr hCp⟩)
    by_cases hCp : tc.name ∈ approvalSet
    · by_cases hDp : (tc.name, true) ∈ decisions
      · have hR : tc.name ∉ rejected := fun hr => (hRiff.mp hr).2 hDp
        have h1 : (existingToolIds messages
            ++ existingToolIds (rejectionMessages messages rejected)).contains tc.id
            = false := Bool.eq_false_iff.mpr fun h => hR (hCid.mp h)
        have h2 : approvalSet.contains tc.name = true := List.elem_iff.mpr hCp
        have h3 : decisions.contains (tc.name, true) = true := List.elem_iff.mpr hDp
        rw [h1, h2, h3]
        rfl
      · have hR : tc.name ∈ rejected := hRiff.mpr ⟨hCp, hDp⟩
        have h1 : (existingToolIds messages
            ++ existingToolIds (rejectionMessages messages rejected)).contains tc.id
            = true := hCid.mpr hR
        have h2 : approvalSet.contains tc.name = true := List.elem_iff.mpr hCp
        have h3 : decisions.contains (tc.name, true) = false :=
          Bool.eq_false_iff.mpr fun h => hDp (List.elem_iff.mp h)
        rw [h1, h2, h3]
        rfl
    · have hR : tc.name ∉ rejected := fun hr => hCp (hRiff.mp hr).1
      have h1 : (existingToolIds messages
          ++ existingToolIds (rejectionMessages messages rejected)).contains tc.id
          = false := Bool.eq_false_iff.mpr fun h => hR (hCid.mp h)
      have h2 : approvalSet.contains tc.name = false :=
        Bool.eq_false_iff.mpr fun h => hCp (List.elem_iff.mp h)
      rw [h1, h2]
      rfl
  have hmain : uiSubmitAndResume messages approvalSet decisions
      = (pendingBatch messages).filter
          (fun tc => !approvalSet.contains tc.name || decisions.contains (tc.name, true)) := by
    rw [hstepA]
    exact List.filter_congr hpoint
  refine ⟨hmain, ?_⟩
  intro tc htcneed hnone hmem
  rw [hmain] at hmem
  obtain ⟨-, hg⟩ := List.mem_filter.mp hmem
  rw [hneed] at htcneed
  obtain ⟨-, hcont⟩ := List.mem_filter.mp htcneed
  rw [hcont] at hg
  simp only [Bool.not_true, Bool.false_or] at hg
  exact hnone true (List.elem_iff.mp hg)


/-- Witness for `undecided_tool_rejected_amended`: batch
calculator / web_search / file_operations all requiring approval, calculator
explicitly approved, web_search explicitly rejected, file_operations
undecided — only the calculator call executes. -/
theorem undecided_tool_rejected_amended_witness :
    uiSubmitAndResume
        [Msg.human "hi", Msg.ai "" [⟨"calculator", "", "1"⟩, ⟨"web_search", "", "2"⟩,
          ⟨"file_operations", "", "3"⟩]]
        ["calculator", "web_search", "file_operations"]
        [("calculator", true), ("web_search", false)]
      = [⟨"calculator", "", "1"⟩]
    ∧ (⟨"file_operations", "", "3"⟩ : ToolCall) ∉ uiSubmitAndResume
        [Msg.human "hi", Msg.ai "" [⟨"calculator", "", "1"⟩, ⟨"web_search", "", "2"⟩,
          ⟨"file_operations", "", "3"⟩]]
        ["calculator", "web_search", "file_operations"]
        [("calculator", true), ("web_search", false)] := by
  have h := undecided_tool_rejected_amended
    [Msg.human "hi", Msg.ai "" [⟨"calculator", "", "1"⟩, ⟨"web_search", "", "2"⟩,
      ⟨"file_operations", "", "3"⟩]]
    ["calculator", "web_search", "file_operations"]
    [("calculator", true), ("web_search", false)]
    (by decide) (by decide) (by decide) (by decide)
  refine ⟨?_, ?_⟩
  · rw [h.1]
    rfl
  · exact h.2 ⟨"file_operations", "", "3"⟩ (by decide) (by decide)

end LangGraphChatbot
